import Mathlib

/-!
Shallow embedding of `pydev_modify_bytecode.py`, a bytecode-insertion engine
for CPython 3.6 wordcode, together with proofs about the claims of its
specification.  Byte streams are modelled as `List Nat`, machine bytes are
plain naturals (all relevant arithmetic is explicit), fallible code returns
`Except String`, and the fixed-point worklist of `_update_label_offsets` is
driven by explicit fuel (the concrete theorems supply enough fuel for the
queue to drain).
-/

namespace PydevBytecode

/-- `MAX_BYTE = 255` from the source. -/
def MAX_BYTE : Nat := 255

/-- `dis.HAVE_ARGUMENT` for CPython 3.6. -/
def HAVE_ARGUMENT : Nat := 90

/-- `opcode.EXTENDED_ARG` for CPython 3.6. -/
def EXTENDED_ARG : Nat := 144

/-- `opmap["LOAD_CONST"]` for CPython 3.6. -/
def LOAD_CONST : Nat := 100

/-- `dis.hasjrel` for CPython 3.6: FOR_ITER, JUMP_FORWARD, SETUP_LOOP,
SETUP_EXCEPT, SETUP_FINALLY, SETUP_WITH. -/
def hasjrel : List Nat := [93, 110, 120, 121, 122, 143]

/-- `dis.hasjabs` for CPython 3.6: JUMP_IF_FALSE_OR_POP, JUMP_IF_TRUE_OR_POP,
JUMP_ABSOLUTE, POP_JUMP_IF_FALSE, POP_JUMP_IF_TRUE, CONTINUE_LOOP. -/
def hasjabs : List Nat := [111, 112, 113, 114, 115, 119]

/-- `dis.hasname` for CPython 3.6. -/
def hasname : List Nat := [90, 91, 95, 96, 97, 98, 101, 106, 108, 109, 116]

/-- `dis.haslocal` for CPython 3.6: LOAD_FAST, STORE_FAST, DELETE_FAST. -/
def haslocal : List Nat := [124, 125, 126]

/-- `dis._unpack_opargs` (CPython 3.6): walk the wordcode two bytes at a
time yielding `(offset, op, arg)`; ops `< HAVE_ARGUMENT` yield no arg, and
an `EXTENDED_ARG` instruction feeds the high bits of the following arg.
The accumulator `i` is the current byte offset and `ext` the pending
`extended_arg` value.  (On a trailing lone byte the Python generator would
fault reading `code[i+1]`; that case is out of the domain and modelled as
an argument-less instruction.) -/
def unpack_opargs_aux : List Nat → Nat → Nat → List (Nat × Nat × Option Nat)
  | [], _, _ => []
  | [op], i, _ => [(i, op, none)]
  | op :: b :: rest, i, ext =>
    if op ≥ HAVE_ARGUMENT then
      (i, op, some (Nat.lor b ext)) ::
        unpack_opargs_aux rest (i + 2)
          (if op = EXTENDED_ARG then (Nat.lor b ext) <<< 8 else 0)
    else
      (i, op, none) :: unpack_opargs_aux rest (i + 2) ext

/-- `dis._unpack_opargs(code)` starting at offset 0 with no pending
extended argument. -/
def unpack_opargs (code : List Nat) : List (Nat × Nat × Option Nat) :=
  unpack_opargs_aux code 0 0

/-- The marking condition of the first scan loop of `_update_label_offsets`:
an instruction is collected into `offsets_for_modification` when it has an
argument and is a relative jump whose span strictly contains
`current_offset`, or an absolute jump whose target is at or after it. -/
def jump_needs_modification (current_offset : Nat)
    (e : Nat × Nat × Option Nat) : Bool :=
  match e with
  | (offset, op, some arg) =>
    if op ∈ hasjrel then
      decide (offset < current_offset ∧ current_offset < offset + 2 + arg)
    else if op ∈ hasjabs then
      decide (current_offset ≤ arg)
    else
      false
  | (_, _, none) => false

/-- The `offsets_for_modification` list built by the first loop of
`_update_label_offsets`. -/
def offsets_for_modification (current_offset : Nat) (code_list : List Nat) :
    List Nat :=
  ((unpack_opargs code_list).filter
      (jump_needs_modification current_offset)).map (fun e => e.1)

/-- The second loop of `_update_label_offsets`: walk `code_list` two bytes
at a time (running byte index `i`); at every offset in `offs` whose opcode
has an argument, add `L` (the pending insertion's length) to the operand
byte.  If the new operand exceeds `MAX_BYTE`, store its low byte and emit a
pending `(offset, [EXTENDED_ARG, high byte])` insertion (these are the
queue `put`s and `all_inserted_code` updates of the source, returned here
as the second component, in loop order). -/
def modify_jumps (offs : List Nat) (L : Nat) :
    Nat → List Nat → List Nat × List (Nat × List Nat)
  | _, [] => ([], [])
  | _, [op] => ([op], [])
  | i, op :: b :: rest =>
    let tail := modify_jumps offs L (i + 2) rest
    if i ∈ offs ∧ op ≥ HAVE_ARGUMENT then
      let new_arg := b + L
      if new_arg ≤ MAX_BYTE then
        (op :: new_arg :: tail.1, tail.2)
      else
        (op :: (new_arg % 256) :: tail.1,
          (i, [EXTENDED_ARG, new_arg / 256]) :: tail.2)
    else
      (op :: b :: tail.1, tail.2)

/-- Python `dict` assignment `m[k] = v` on an insertion-ordered
association list: replace in place when the key exists, else append. -/
def dict_set (m : List (Nat × Nat)) (k v : Nat) : List (Nat × Nat) :=
  match m with
  | [] => [(k, v)]
  | (k', v') :: rest =>
    if k' = k then (k, v) :: rest else (k', v') :: dict_set rest k v

/-- The worklist loop of `_update_label_offsets`.  Each round pops one
pending `(current_offset, current_code_list)` piece, marks the jumps that
must grow, rewrites their operands (possibly emitting new pending
`EXTENDED_ARG` insertions), splices the piece into the stream, and then
re-indexes every recorded insertion and every still-pending piece lying
after the splice point.  `fuel` bounds the number of rounds (the source
loops until the queue is empty); `none` means the fuel ran out. -/
def update_label_offsets_loop :
    Nat → List (Nat × List Nat) → List (Nat × Nat) → List Nat →
      Option (List Nat × List (Nat × Nat))
  | 0, _, _, _ => none
  | _ + 1, [], all_inserted_code, code_list => some (code_list, all_inserted_code)
  | fuel + 1, (current_offset, current_code_list) :: rest, all_inserted_code,
      code_list =>
    let offs := offsets_for_modification current_offset code_list
    let step := modify_jumps offs current_code_list.length 0 code_list
    let queue2 := rest ++ step.2
    let inserted2 :=
      step.2.foldl (fun m a => dict_set m a.1 a.2.length) all_inserted_code
    let code3 :=
      step.1.take current_offset ++ current_code_list ++
        step.1.drop current_offset
    let inserted3 := inserted2.map (fun p =>
      if current_offset < p.1 then (p.1 + current_code_list.length, p.2) else p)
    let queue3 := queue2.map (fun p =>
      if current_offset < p.1 then (p.1 + current_code_list.length, p.2) else p)
    update_label_offsets_loop fuel queue3 inserted3 code3

/-- `_update_label_offsets(code_obj, breakpoint_offset, breakpoint_code_list)`:
seed the queue with the caller's single request, record it in
`all_inserted_code`, and run the worklist loop. -/
def update_label_offsets (code_obj : List Nat) (breakpoint_offset : Nat)
    (breakpoint_code_list : List Nat) (fuel : Nat) :
    Option (List Nat × List (Nat × Nat)) :=
  update_label_offsets_loop fuel [(breakpoint_offset, breakpoint_code_list)]
    [(breakpoint_offset, breakpoint_code_list.length)] code_obj

/-- The mutation loop of `_add_attr_values_from_insert_to_original`: for
each already-unpacked instruction whose opcode is in `op_list`, add
`orig_names_len` to its operand byte, raising `ValueError` when the sum
would exceed `MAX_BYTE`. -/
def apply_shift_aux (orig_names_len : Nat) (op_list : List Nat) :
    List (Nat × Nat × Option Nat) → List Nat → Except String (List Nat)
  | [], code_with_new_values => .ok code_with_new_values
  | (offset, op, _) :: rest, code_with_new_values =>
    if op ∈ op_list then
      if code_with_new_values.getD (offset + 1) 0 + orig_names_len > MAX_BYTE
      then .error "Bad number of arguments"
      else
        apply_shift_aux orig_names_len op_list rest
          (code_with_new_values.set (offset + 1)
            (code_with_new_values.getD (offset + 1) 0 + orig_names_len))
    else apply_shift_aux orig_names_len op_list rest code_with_new_values

/-- `_add_attr_values_from_insert_to_original`: shift the operand of every
snippet instruction whose opcode is in `op_list` by the length of the
target's attribute values, and return the shifted snippet bytes together
with the concatenation of the target's and the snippet's values. -/
def add_attr_values_from_insert_to_original (orig_value insert_value : List Nat)
    (insert_code_obj : List Nat) (op_list : List Nat) :
    Except String (List Nat × List Nat) :=
  (apply_shift_aux orig_value.length op_list (unpack_opargs insert_code_obj)
      insert_code_obj).map
    (fun code_with_new_values => (code_with_new_values, orig_value ++ insert_value))

/-- The inner loop of `_modify_new_lines` for one `lnotab` entry: walk the
`all_inserted_code` pairs; each insertion offset falling in
`[prev_abs_offset, abs_offset)` grows the entry's byte delta and the
running absolute offset by the inserted size, raising `ValueError` when
the delta would exceed `MAX_BYTE`.  State is `(delta, abs_offset)`. -/
def modify_entry : List (Nat × Nat) → Nat → Nat → Nat → Except String (Nat × Nat)
  | [], _, delta, abs_offset => .ok (delta, abs_offset)
  | (inserted_offset, size) :: rest, prev_abs_offset, delta, abs_offset =>
    if prev_abs_offset ≤ inserted_offset ∧ inserted_offset < abs_offset then
      if delta + size > MAX_BYTE then .error "Bad number of arguments"
      else modify_entry rest prev_abs_offset (delta + size) (abs_offset + size)
    else modify_entry rest prev_abs_offset delta abs_offset

/-- The outer loop of `_modify_new_lines`: walk the `lnotab` byte list two
bytes at a time, keeping the running absolute offset; line-delta bytes
pass through unchanged. -/
def modify_new_lines_aux (all_inserted_code : List (Nat × Nat)) :
    Nat → List Nat → Except String (List Nat)
  | _, [] => .ok []
  | abs_offset, [b] =>
    (modify_entry all_inserted_code abs_offset b (abs_offset + b)).map
      (fun r => [r.1])
  | abs_offset, b :: l :: rest =>
    match modify_entry all_inserted_code abs_offset b (abs_offset + b) with
    | .error e => .error e
    | .ok (b', abs') =>
      (modify_new_lines_aux all_inserted_code abs' rest).map
        (fun t => b' :: l :: t)

/-- `_modify_new_lines(code_to_modify, all_inserted_code)` on the target's
`co_lnotab` byte list. -/
def modify_new_lines (co_lnotab : List Nat)
    (all_inserted_code : List (Nat × Nat)) : Except String (List Nat) :=
  modify_new_lines_aux all_inserted_code 0 co_lnotab

/-- The mutable-out record built by `types.CodeType(...)`, with its fields
in the constructor order used by the source.  Names, constants and local
variable names are modelled as opaque numeric values. -/
structure CodeType where
  co_argcount : Nat
  co_kwonlyargcount : Nat
  co_nlocals : Nat
  co_stacksize : Nat
  co_flags : Nat
  co_code : List Nat
  co_consts : List Nat
  co_names : List Nat
  co_varnames : List Nat
  co_filename : String
  co_name : String
  co_firstlineno : Int
  co_lnotab : List Nat
  co_freevars : List Nat
  co_cellvars : List Nat
deriving DecidableEq, Repr

/-- `dis.findlinestarts` (CPython 3.6): walk the delta-encoded `lnotab`
pairs accumulating `(addr, lineno)`; yield a pair whenever a nonzero byte
increment begins a new line; line increments `≥ 0x80` are negative. -/
def findlinestarts_aux : List Nat → Nat → Int → Option Int → List (Nat × Int)
  | [], addr, lineno, lastlineno =>
    if lastlineno = some lineno then [] else [(addr, lineno)]
  | [_], addr, lineno, lastlineno =>
    if lastlineno = some lineno then [] else [(addr, lineno)]
  | byte_incr :: line_incr :: rest, addr, lineno, lastlineno =>
    let li : Int := if line_incr ≥ 128 then (line_incr : Int) - 256 else (line_incr : Int)
    if byte_incr ≠ 0 then
      if lastlineno = some lineno then
        findlinestarts_aux rest (addr + byte_incr) (lineno + li) lastlineno
      else
        (addr, lineno) ::
          findlinestarts_aux rest (addr + byte_incr) (lineno + li) (some lineno)
    else
      findlinestarts_aux rest addr (lineno + li) lastlineno

/-- `dict(dis.findlinestarts(code_to_modify))`; the yielded byte offsets
are strictly increasing (proved below), so the dict keeps every pair in
generation order. -/
def findlinestarts (c : CodeType) : List (Nat × Int) :=
  findlinestarts_aux c.co_lnotab 0 c.co_firstlineno none

/-- The offset-resolution loop of `insert_code`: scan the line-starts
pairs in order, remembering the offset of every pair whose line is
`before_line`; the last match wins. -/
def select_offset (linestarts : List (Nat × Int)) (before_line : Int) :
    Option Nat :=
  linestarts.foldl
    (fun acc p => if p.2 = before_line then some p.1 else acc) none

/-- The byte length of `_return_none_fun.__code__.co_code`, the compiled
`return None` epilogue `LOAD_CONST 0; RETURN_VALUE` (CPython 3.6 wordcode
`b"d\x00S\x00"`). -/
def return_none_co_code : List Nat := [LOAD_CONST, 0, 83, 0]

/-- The two distinct shapes `insert_code` can return: the untouched input
on the line-not-found path, or the freshly assembled unit. -/
inductive InsertResult where
  | unchanged (code : CodeType)
  | rewritten (code : CodeType)
deriving DecidableEq, Repr

/-- `insert_code(code_to_modify, code_to_insert, before_line)`.  `fuel`
feeds the worklist loop; `none` is fuel exhaustion (a model artifact),
`some (.error e)` is the propagated `ValueError`, and `some (.ok r)` the
Python return value. -/
def insert_code (code_to_modify code_to_insert : CodeType) (before_line : Int)
    (fuel : Nat) : Option (Except String InsertResult) :=
  let linestarts := findlinestarts code_to_modify
  if ∀ p ∈ linestarts, p.2 ≠ before_line then
    some (.ok (.unchanged code_to_modify))
  else
    match select_offset linestarts before_line with
    | none => some (.error "offset is None")
    | some offset =>
      let return_none_size := return_none_co_code.length
      let obj0 := code_to_insert.co_code.take
        (code_to_insert.co_code.length - return_none_size)
      match add_attr_values_from_insert_to_original code_to_modify.co_names
          code_to_insert.co_names obj0 hasname with
      | .error e => some (.error e)
      | .ok (obj1, new_names) =>
        match add_attr_values_from_insert_to_original code_to_modify.co_consts
            code_to_insert.co_consts obj1 [LOAD_CONST] with
        | .error e => some (.error e)
        | .ok (obj2, new_consts) =>
          match add_attr_values_from_insert_to_original
              code_to_modify.co_varnames code_to_insert.co_varnames obj2
              haslocal with
          | .error e => some (.error e)
          | .ok (obj3, new_vars) =>
            match update_label_offsets code_to_modify.co_code offset obj3 fuel with
            | none => none
            | some (new_bytes, all_inserted_code) =>
              match modify_new_lines code_to_modify.co_lnotab all_inserted_code with
              | .error e => some (.error e)
              | .ok new_lnotab =>
                some (.ok (.rewritten {
                  co_argcount := code_to_modify.co_argcount
                  co_kwonlyargcount := code_to_modify.co_kwonlyargcount
                  co_nlocals := new_vars.length
                  co_stacksize := code_to_modify.co_stacksize
                  co_flags := code_to_modify.co_flags
                  co_code := new_bytes
                  co_consts := new_consts
                  co_names := new_names
                  co_varnames := new_vars
                  co_filename := code_to_modify.co_filename
                  co_name := code_to_modify.co_name
                  co_firstlineno := code_to_modify.co_firstlineno
                  co_lnotab := new_lnotab
                  co_freevars := code_to_modify.co_freevars
                  co_cellvars := code_to_modify.co_cellvars }))

/-! ### Helper lemmas about `List.getD` and `List.set` -/

theorem getD_set_ne {l : List Nat} {i j : Nat} (a d : Nat) (h : i ≠ j) :
    (l.set i a).getD j d = l.getD j d := by
  simp [List.getD_eq_getElem?_getD, List.getElem?_set_ne h]

theorem getD_set_self {l : List Nat} {i : Nat} (a d : Nat) (h : i < l.length) :
    (l.set i a).getD i d = a := by
  simp [List.getD_eq_getElem?_getD, List.getElem?_set_self h]

/-- In a list of key-value pairs whose keys strictly increase, a key
determines its entry. -/
theorem pairwise_key_unique {α : Type} {l : List (Nat × α)}
    (hp : l.Pairwise (fun a b => a.1 < b.1)) :
    ∀ e ∈ l, ∀ e' ∈ l, e.1 = e'.1 → e = e' := by
  induction l with
  | nil => simp
  | cons x xs ih =>
    rcases List.pairwise_cons.mp hp with ⟨hx, hxs⟩
    intro e he e' he' hk
    rcases List.mem_cons.mp he with h1 | h1
    · rcases List.mem_cons.mp he' with h2 | h2
      · rw [h1, h2]
      · subst h1
        exact absurd (hx e' h2) (by omega)
    · rcases List.mem_cons.mp he' with h2 | h2
      · subst h2
        exact absurd (hx e h1) (by omega)
      · exact ih hxs e h1 e' h2 hk

/-! ### Facts about `unpack_opargs` -/

theorem unpack_aux_offset_ge :
    ∀ (code : List Nat) (i ext : Nat) (e : Nat × Nat × Option Nat),
      e ∈ unpack_opargs_aux code i ext → i ≤ e.1
  | [], _, _, _, h => absurd h (by simp [unpack_opargs_aux])
  | [op], i, ext, e, h => by
    simp only [unpack_opargs_aux, List.mem_singleton] at h
    subst h; exact Nat.le_refl i
  | op :: b :: rest, i, ext, e, h => by
    simp only [unpack_opargs_aux] at h
    split at h <;>
    · rcases List.mem_cons.mp h with rfl | h'
      · exact Nat.le_refl i
      · have := unpack_aux_offset_ge rest (i + 2) _ e h'
        omega

theorem unpack_aux_pairwise :
    ∀ (code : List Nat) (i ext : Nat),
      (unpack_opargs_aux code i ext).Pairwise (fun a b => a.1 < b.1)
  | [], _, _ => by simp [unpack_opargs_aux]
  | [op], i, ext => by simp [unpack_opargs_aux]
  | op :: b :: rest, i, ext => by
    simp only [unpack_opargs_aux]
    split <;>
    · refine List.pairwise_cons.mpr ⟨fun e he => ?_, unpack_aux_pairwise rest (i + 2) _⟩
      have := unpack_aux_offset_ge rest (i + 2) _ e he
      show i < e.1
      omega

theorem unpack_aux_parity :
    ∀ (code : List Nat) (i ext : Nat) (e : Nat × Nat × Option Nat),
      e ∈ unpack_opargs_aux code i ext → e.1 % 2 = i % 2
  | [], _, _, _, h => absurd h (by simp [unpack_opargs_aux])
  | [op], i, ext, e, h => by
    simp only [unpack_opargs_aux, List.mem_singleton] at h
    subst h; rfl
  | op :: b :: rest, i, ext, e, h => by
    simp only [unpack_opargs_aux] at h
    split at h <;>
    · rcases List.mem_cons.mp h with rfl | h'
      · rfl
      · have := unpack_aux_parity rest (i + 2) _ e h'
        omega

theorem unpack_aux_getD_op :
    ∀ (code : List Nat) (i ext : Nat) (o op : Nat) (a : Option Nat),
      (o, op, a) ∈ unpack_opargs_aux code i ext → code.getD (o - i) 0 = op
  | [], _, _, _, _, _, h => absurd h (by simp [unpack_opargs_aux])
  | [op'], i, ext, o, op, a, h => by
    simp only [unpack_opargs_aux, List.mem_singleton, Prod.mk.injEq] at h
    obtain ⟨rfl, rfl, -⟩ := h
    simp
  | op' :: b :: rest, i, ext, o, op, a, h => by
    simp only [unpack_opargs_aux] at h
    split at h <;>
    · rcases List.mem_cons.mp h with heq | h'
      · simp only [Prod.mk.injEq] at heq
        obtain ⟨rfl, rfl, -⟩ := heq
        simp
      · have hge := unpack_aux_offset_ge rest (i + 2) _ _ h'
        have := unpack_aux_getD_op rest (i + 2) _ o op a h'
        have hsub : o - i = (o - (i + 2)) + 2 := by omega
        rw [hsub]
        simpa using this

theorem unpack_aux_some_ge :
    ∀ (code : List Nat) (i ext : Nat) (o op arg : Nat),
      (o, op, some arg) ∈ unpack_opargs_aux code i ext → op ≥ HAVE_ARGUMENT
  | [], _, _, _, _, _, h => absurd h (by simp [unpack_opargs_aux])
  | [op'], i, ext, o, op, arg, h => by
    simp [unpack_opargs_aux] at h
  | op' :: b :: rest, i, ext, o, op, arg, h => by
    simp only [unpack_opargs_aux] at h
    split at h
    · rcases List.mem_cons.mp h with heq | h'
      · simp only [Prod.mk.injEq] at heq
        obtain ⟨-, rfl, -⟩ := heq
        assumption
      · exact unpack_aux_some_ge rest (i + 2) _ o op arg h'
    · rcases List.mem_cons.mp h with heq | h'
      · simp at heq
      · exact unpack_aux_some_ge rest (i + 2) _ o op arg h'

theorem unpack_aux_some_succ_lt :
    ∀ (code : List Nat) (i ext : Nat) (o op arg : Nat),
      (o, op, some arg) ∈ unpack_opargs_aux code i ext →
        o + 1 < i + code.length
  | [], _, _, _, _, _, h => absurd h (by simp [unpack_opargs_aux])
  | [op'], i, ext, o, op, arg, h => by
    simp [unpack_opargs_aux] at h
  | op' :: b :: rest, i, ext, o, op, arg, h => by
    simp only [unpack_opargs_aux] at h
    split at h
    · rcases List.mem_cons.mp h with heq | h'
      · simp only [Prod.mk.injEq] at heq
        obtain ⟨rfl, -, -⟩ := heq
        simp only [List.length_cons]
        omega
      · have := unpack_aux_some_succ_lt rest (i + 2) _ o op arg h'
        simp at this ⊢; omega
    · rcases List.mem_cons.mp h with heq | h'
      · simp at heq
      · have := unpack_aux_some_succ_lt rest (i + 2) _ o op arg h'
        simp at this ⊢; omega

theorem unpack_aux_succ_lt_of_even :
    ∀ (code : List Nat) (i ext : Nat) (e : Nat × Nat × Option Nat),
      e ∈ unpack_opargs_aux code i ext → code.length % 2 = 0 →
        e.1 + 1 < i + code.length
  | [], _, _, _, h, _ => absurd h (by simp [unpack_opargs_aux])
  | [op'], i, ext, e, h, hlen => by simp at hlen
  | op' :: b :: rest, i, ext, e, h, hlen => by
    simp only [unpack_opargs_aux] at h
    have hlen' : rest.length % 2 = 0 := by simp at hlen; omega
    split at h <;>
    · rcases List.mem_cons.mp h with rfl | h'
      · simp only [List.length_cons]
        omega
      · have := unpack_aux_succ_lt_of_even rest (i + 2) _ e h' hlen'
        simp at this ⊢; omega

theorem unpack_offset_unique {code : List Nat}
    {e e' : Nat × Nat × Option Nat} (he : e ∈ unpack_opargs code)
    (he' : e' ∈ unpack_opargs code) (h : e.1 = e'.1) : e = e' :=
  pairwise_key_unique (unpack_aux_pairwise code 0 0) e he e' he' h

/-! ### Facts about `modify_jumps` (the operand-update loop) -/

theorem modify_jumps_length :
    ∀ (code : List Nat) (offs : List Nat) (L i : Nat),
      (modify_jumps offs L i code).1.length = code.length
  | [], _, _, _ => rfl
  | [op], _, _, _ => rfl
  | op :: b :: rest, offs, L, i => by
    have := modify_jumps_length rest offs L (i + 2)
    simp only [modify_jumps]
    split
    · split <;> simpa
    · simpa

theorem modify_jumps_getD_even :
    ∀ (code : List Nat) (offs : List Nat) (L i k : Nat), k % 2 = 0 →
      (modify_jumps offs L i code).1.getD k 0 = code.getD k 0
  | [], _, _, _, _, _ => rfl
  | [op], _, _, _, _, _ => rfl
  | op :: b :: rest, offs, L, i, k, hk => by
    match k, hk with
    | 0, _ =>
      simp only [modify_jumps]
      split
      · split <;> rfl
      · rfl
    | (k' + 2), hk =>
      have hk' : k' % 2 = 0 := by omega
      have := modify_jumps_getD_even rest offs L (i + 2) k' hk'
      simp only [modify_jumps]
      split
      · split <;> simpa [List.getD_cons_succ]
      · simpa [List.getD_cons_succ]

theorem modify_jumps_getD_odd :
    ∀ (code : List Nat) (offs : List Nat) (L i j : Nat), j % 2 = 0 →
      (modify_jumps offs L i code).1.getD (j + 1) 0 =
        if (i + j) ∈ offs ∧ code.getD j 0 ≥ HAVE_ARGUMENT ∧ j + 1 < code.length
        then
          (if code.getD (j + 1) 0 + L ≤ MAX_BYTE then code.getD (j + 1) 0 + L
           else (code.getD (j + 1) 0 + L) % 256)
        else code.getD (j + 1) 0
  | [], offs, L, i, j, hj => by simp [modify_jumps]
  | [op], offs, L, i, j, hj => by
    have : ¬ (j + 1 < [op].length) := by simp
    simp only [modify_jumps, this, and_false, if_false]
  | op :: b :: rest, offs, L, i, j, hj => by
    match j, hj with
    | 0, _ =>
      have hcnd : ((i + 0) ∈ offs ∧ (op :: b :: rest).getD 0 0 ≥ HAVE_ARGUMENT ∧
          0 + 1 < (op :: b :: rest).length) ↔ (i ∈ offs ∧ op ≥ HAVE_ARGUMENT) := by
        simp only [Nat.add_zero, List.getD_cons_zero, List.length_cons]
        constructor
        · exact fun h => ⟨h.1, h.2.1⟩
        · exact fun h => ⟨h.1, h.2, by omega⟩
      rw [if_congr hcnd rfl rfl]
      simp only [modify_jumps]
      by_cases hcond : i ∈ offs ∧ op ≥ HAVE_ARGUMENT
      · simp only [if_pos hcond]
        by_cases hfit : b + L ≤ MAX_BYTE
        · have hfit' : (op :: b :: rest).getD (0 + 1) 0 + L ≤ MAX_BYTE := hfit
          simp only [if_pos hfit, if_pos hfit']
          rfl
        · have hfit' : ¬ ((op :: b :: rest).getD (0 + 1) 0 + L ≤ MAX_BYTE) := hfit
          simp only [if_neg hfit, if_neg hfit']
          rfl
      · simp only [if_neg hcond]
        rfl
    | (j' + 2), hj =>
      have hj' : j' % 2 = 0 := by omega
      have ih := modify_jumps_getD_odd rest offs L (i + 2) j' hj'
      have hg1 : (op :: b :: rest).getD (j' + 2) 0 = rest.getD j' 0 := rfl
      have hg2 : (op :: b :: rest).getD (j' + 2 + 1) 0 = rest.getD (j' + 1) 0 := rfl
      have hcnd : ((i + (j' + 2)) ∈ offs ∧
          (op :: b :: rest).getD (j' + 2) 0 ≥ HAVE_ARGUMENT ∧
          j' + 2 + 1 < (op :: b :: rest).length) ↔
          ((i + 2 + j') ∈ offs ∧ rest.getD j' 0 ≥ HAVE_ARGUMENT ∧
          j' + 1 < rest.length) := by
        rw [hg1, show i + (j' + 2) = i + 2 + j' from by omega]
        simp only [List.length_cons]
        constructor
        · exact fun h => ⟨h.1, h.2.1, by omega⟩
        · exact fun h => ⟨h.1, h.2.1, by omega⟩
      rw [if_congr hcnd rfl rfl, hg2, ← ih]
      simp only [modify_jumps]
      by_cases hcond : i ∈ offs ∧ op ≥ HAVE_ARGUMENT
      · rw [if_pos hcond]
        by_cases hfit : b + L ≤ MAX_BYTE
        · rw [if_pos hfit]
          rfl
        · rw [if_neg hfit]
          rfl
      · rw [if_neg hcond]
        rfl

theorem modify_jumps_adds_mem :
    ∀ (code : List Nat) (offs : List Nat) (L i o : Nat),
      i ≤ o → (o - i) % 2 = 0 → o ∈ offs →
      code.getD (o - i) 0 ≥ HAVE_ARGUMENT → (o - i) + 1 < code.length →
      code.getD (o - i + 1) 0 + L > MAX_BYTE →
      (o, [EXTENDED_ARG, (code.getD (o - i + 1) 0 + L) / 256]) ∈
        (modify_jumps offs L i code).2
  | [], offs, L, i, o, hge, hpar, hmem, hop, hlt, hov => by simp at hlt
  | [op], offs, L, i, o, hge, hpar, hmem, hop, hlt, hov => by simp at hlt
  | op :: b :: rest, offs, L, i, o, hge, hpar, hmem, hop, hlt, hov => by
    rcases Nat.eq_or_lt_of_le hge with rfl | hlt2
    · simp only [Nat.sub_self, List.getD_cons_zero, List.getD_cons_succ] at hop hov
      simp only [modify_jumps, if_pos (And.intro hmem hop)]
      rw [if_neg (by omega)]
      simp only [Nat.sub_self, List.getD_cons_succ, List.getD_cons_zero]
      exact List.mem_cons_self _ _
    · have hge' : i + 2 ≤ o := by omega
      have hsub : o - i = (o - (i + 2)) + 2 := by omega
      rw [hsub] at hpar hop hlt hov
      simp only [List.getD_cons_succ, List.length_cons] at hop hlt hov
      have ih := modify_jumps_adds_mem rest offs L (i + 2) o hge'
        (by omega) hmem hop (by omega) hov
      simp only [modify_jumps, hsub, List.getD_cons_succ]
      split
      · split
        · exact ih
        · exact List.mem_cons_of_mem _ ih
      · exact ih

/-! ### Membership in `offsets_for_modification` -/

theorem mem_offsets_iff {code_list : List Nat} {current_offset : Nat}
    {o op : Nat} {arg : Nat}
    (he : (o, op, some arg) ∈ unpack_opargs code_list) :
    o ∈ offsets_for_modification current_offset code_list ↔
      jump_needs_modification current_offset (o, op, some arg) = true := by
  constructor
  · intro hmem
    obtain ⟨e, hef, heo⟩ := List.mem_map.mp hmem
    obtain ⟨heu, hemk⟩ := List.mem_filter.mp hef
    have heq : e = (o, op, some arg) := unpack_offset_unique heu he heo
    rwa [heq] at hemk
  · intro hmk
    exact List.mem_map.mpr ⟨(o, op, some arg), List.mem_filter.mpr ⟨he, hmk⟩, rfl⟩

/-- C2: in the jump retargeting pass, a relative jump's operand grows by
the pending insertion's length exactly when the insertion offset lies
strictly between the jump's own offset and its logical target offset
`offset + 2 + arg`; a relative jump whose own offset or whose target
offset equals the insertion offset is left unchanged (the growth is
witnessed on the stored operand byte when it stays within `MAX_BYTE`;
the overflow continuation is the subject of the extended-arg claim). -/
theorem relative_jump_growth_iff (code_list : List Nat)
    (current_offset L offset op arg : Nat)
    (he : (offset, op, some arg) ∈ unpack_opargs code_list)
    (hrel : op ∈ hasjrel) :
    (offset ∈ offsets_for_modification current_offset code_list ↔
      (offset < current_offset ∧ current_offset < offset + 2 + arg)) ∧
    (¬ (offset < current_offset ∧ current_offset < offset + 2 + arg) →
      (modify_jumps (offsets_for_modification current_offset code_list) L 0
          code_list).1.getD (offset + 1) 0 = code_list.getD (offset + 1) 0) ∧
    ((offset < current_offset ∧ current_offset < offset + 2 + arg) →
      code_list.getD (offset + 1) 0 + L ≤ MAX_BYTE →
      (modify_jumps (offsets_for_modification current_offset code_list) L 0
          code_list).1.getD (offset + 1) 0 =
        code_list.getD (offset + 1) 0 + L) := by
  have hiff : offset ∈ offsets_for_modification current_offset code_list ↔
      (offset < current_offset ∧ current_offset < offset + 2 + arg) := by
    rw [mem_offsets_iff he]
    simp [jump_needs_modification, hrel]
  have hpar : offset % 2 = 0 := unpack_aux_parity code_list 0 0 _ he
  have hop : code_list.getD offset 0 = op := by
    have := unpack_aux_getD_op code_list 0 0 offset op _ he
    simpa using this
  have hopge : op ≥ HAVE_ARGUMENT := unpack_aux_some_ge code_list 0 0 _ _ _ he
  have hlt : offset + 1 < code_list.length := by
    have := unpack_aux_some_succ_lt code_list 0 0 _ _ _ he
    simpa using this
  have hodd := modify_jumps_getD_odd code_list
    (offsets_for_modification current_offset code_list) L 0 offset hpar
  refine ⟨hiff, ?_, ?_⟩
  · intro hnc
    rw [hodd, if_neg ?_]
    intro hcond
    have h1 : offset ∈ offsets_for_modification current_offset code_list := by
      have := hcond.1
      rwa [Nat.zero_add] at this
    exact hnc (hiff.mp h1)
  · intro hc hfit
    have hcnd : (0 + offset) ∈ offsets_for_modification current_offset code_list ∧
        code_list.getD offset 0 ≥ HAVE_ARGUMENT ∧ offset + 1 < code_list.length := by
      refine ⟨?_, ?_, hlt⟩
      · rw [Nat.zero_add]
        exact hiff.mpr hc
      · rw [hop]
        exact hopge
    rw [hodd, if_pos hcnd, if_pos hfit]

/-- Witness for the relative-jump claim at a concrete stream: a
JUMP_FORWARD at offset 0 with operand 2 and an insertion of two bytes at
offset 2 (strictly inside its span). -/
theorem relative_jump_growth_iff_witness :
    (0 ∈ offsets_for_modification 2 [110, 2, 9, 0, 9, 0] ↔
      (0 < 2 ∧ 2 < 0 + 2 + 2)) ∧
    (¬ (0 < 2 ∧ 2 < 0 + 2 + 2) →
      (modify_jumps (offsets_for_modification 2 [110, 2, 9, 0, 9, 0]) 2 0
          [110, 2, 9, 0, 9, 0]).1.getD (0 + 1) 0 =
        [110, 2, 9, 0, 9, 0].getD (0 + 1) 0) ∧
    ((0 < 2 ∧ 2 < 0 + 2 + 2) →
      [110, 2, 9, 0, 9, 0].getD (0 + 1) 0 + 2 ≤ MAX_BYTE →
      (modify_jumps (offsets_for_modification 2 [110, 2, 9, 0, 9, 0]) 2 0
          [110, 2, 9, 0, 9, 0]).1.getD (0 + 1) 0 =
        [110, 2, 9, 0, 9, 0].getD (0 + 1) 0 + 2) :=
  relative_jump_growth_iff [110, 2, 9, 0, 9, 0] 2 2 0 110 2 (by decide) (by decide)

/-- C3: in the jump retargeting pass, an absolute jump's operand grows by
the pending insertion's length exactly when the insertion offset is at or
before the jump's numeric target operand (growth witnessed on the stored
operand byte when it stays within `MAX_BYTE`). -/
theorem absolute_jump_growth_iff (code_list : List Nat)
    (current_offset L offset op arg : Nat)
    (he : (offset, op, some arg) ∈ unpack_opargs code_list)
    (habs : op ∈ hasjabs) :
    (offset ∈ offsets_for_modification current_offset code_list ↔
      current_offset ≤ arg) ∧
    (¬ current_offset ≤ arg →
      (modify_jumps (offsets_for_modification current_offset code_list) L 0
          code_list).1.getD (offset + 1) 0 = code_list.getD (offset + 1) 0) ∧
    (current_offset ≤ arg →
      code_list.getD (offset + 1) 0 + L ≤ MAX_BYTE →
      (modify_jumps (offsets_for_modification current_offset code_list) L 0
          code_list).1.getD (offset + 1) 0 =
        code_list.getD (offset + 1) 0 + L) := by
  have hnotrel : op ∉ hasjrel := by
    have habs' : op = 111 ∨ op = 112 ∨ op = 113 ∨ op = 114 ∨ op = 115 ∨
        op = 119 := by simpa [hasjabs] using habs
    rcases habs' with rfl | rfl | rfl | rfl | rfl | rfl <;> decide
  have hiff : offset ∈ offsets_for_modification current_offset code_list ↔
      current_offset ≤ arg := by
    rw [mem_offsets_iff he]
    simp [jump_needs_modification, hnotrel, habs]
  have hpar : offset % 2 = 0 := unpack_aux_parity code_list 0 0 _ he
  have hop : code_list.getD offset 0 = op := by
    have := unpack_aux_getD_op code_list 0 0 offset op _ he
    simpa using this
  have hopge : op ≥ HAVE_ARGUMENT := unpack_aux_some_ge code_list 0 0 _ _ _ he
  have hlt : offset + 1 < code_list.length := by
    have := unpack_aux_some_succ_lt code_list 0 0 _ _ _ he
    simpa using this
  have hodd := modify_jumps_getD_odd code_list
    (offsets_for_modification current_offset code_list) L 0 offset hpar
  refine ⟨hiff, ?_, ?_⟩
  · intro hnc
    rw [hodd, if_neg ?_]
    intro hcond
    have h1 : offset ∈ offsets_for_modification current_offset code_list := by
      have := hcond.1
      rwa [Nat.zero_add] at this
    exact hnc (hiff.mp h1)
  · intro hc hfit
    have hcnd : (0 + offset) ∈ offsets_for_modification current_offset code_list ∧
        code_list.getD offset 0 ≥ HAVE_ARGUMENT ∧ offset + 1 < code_list.length := by
      refine ⟨?_, ?_, hlt⟩
      · rw [Nat.zero_add]
        exact hiff.mpr hc
      · rw [hop]
        exact hopge
    rw [hodd, if_pos hcnd, if_pos hfit]

/-- Witness for the absolute-jump claim at a concrete stream: a
JUMP_ABSOLUTE at offset 0 targeting offset 4 with an insertion of two
bytes at offset 0. -/
theorem absolute_jump_growth_iff_witness :
    (0 ∈ offsets_for_modification 0 [113, 4, 9, 0, 9, 0] ↔ 0 ≤ 4) ∧
    (¬ (0:Nat) ≤ 4 →
      (modify_jumps (offsets_for_modification 0 [113, 4, 9, 0, 9, 0]) 2 0
          [113, 4, 9, 0, 9, 0]).1.getD (0 + 1) 0 =
        [113, 4, 9, 0, 9, 0].getD (0 + 1) 0) ∧
    ((0:Nat) ≤ 4 →
      [113, 4, 9, 0, 9, 0].getD (0 + 1) 0 + 2 ≤ MAX_BYTE →
      (modify_jumps (offsets_for_modification 0 [113, 4, 9, 0, 9, 0]) 2 0
          [113, 4, 9, 0, 9, 0]).1.getD (0 + 1) 0 =
        [113, 4, 9, 0, 9, 0].getD (0 + 1) 0 + 2) :=
  absolute_jump_growth_iff [113, 4, 9, 0, 9, 0] 0 2 0 113 4 (by decide) (by decide)

set_option maxRecDepth 100000

/-- A stream of `n` two-byte NOP (opcode 9) instructions. -/
def nops (n : Nat) : List Nat := (List.replicate n [9, 0]).flatten

/-- Concrete target for the extended-arg scenario: a JUMP_FORWARD at
offset 0 with operand 254 (logical target offset 256, the RETURN_VALUE at
the end), then 127 NOPs, then RETURN_VALUE. -/
def c4target : List Nat := [110, 254] ++ nops 127 ++ [83, 0]

/-- Expected output of the extended-arg scenario: one EXTENDED_ARG with
high byte 1 immediately before the jump (whose stored low byte became 0),
then the spliced two-byte snippet, then the original body. -/
def c4out : List Nat := [144, 1, 110, 0, 9, 0] ++ nops 127 ++ [83, 0]

/-- C4: when a grown jump operand exceeds `MAX_BYTE`, the engine stores
the low 8 bits in place and emits a pending `[EXTENDED_ARG, high byte]`
insertion at the jump's offset (first conjunct, over the operand-update
loop); and in the canonical scenario where a two-byte insertion pushes a
relative jump's operand from 254 past the one-byte limit, the final
stream contains exactly one EXTENDED_ARG, placed immediately before the
jump, the combined wide operand (256) decodes to the original logical
target's new offset `2 + 2 + 256 = 260` (the RETURN_VALUE that sat at
offset `0 + 2 + 254 = 256` before insertion), the two-byte insertion was
processed off the worklist, and it is recorded in the returned
offset-to-inserted-length map (second conjunct). -/
theorem extended_arg_insertion_behavior :
    (∀ (code offs : List Nat) (L o : Nat),
      o % 2 = 0 → o ∈ offs → code.getD o 0 ≥ HAVE_ARGUMENT →
      o + 1 < code.length → code.getD (o + 1) 0 + L > MAX_BYTE →
      (modify_jumps offs L 0 code).1.getD (o + 1) 0 =
          (code.getD (o + 1) 0 + L) % 256 ∧
        (o, [EXTENDED_ARG, (code.getD (o + 1) 0 + L) / 256]) ∈
          (modify_jumps offs L 0 code).2) ∧
    (update_label_offsets c4target 2 [9, 0] 3 = some (c4out, [(4, 2), (0, 2)]) ∧
      (2, 110, some 256) ∈ unpack_opargs c4out ∧
      c4out.getD (2 + 2 + 256) 0 = 83 ∧
      c4target.getD (0 + 2 + 254) 0 = 83 ∧
      c4out.count 144 = 1 ∧ c4out.getD 0 0 = 144 ∧ c4out.getD 2 0 = 110) := by
  constructor
  · intro code offs L o hpar hmem hop hlt hov
    constructor
    · have hodd := modify_jumps_getD_odd code offs L 0 o hpar
      rw [hodd, if_pos ⟨by rwa [Nat.zero_add], hop, hlt⟩, if_neg (by omega)]
    · have := modify_jumps_adds_mem code offs L 0 o (Nat.zero_le o)
        (by simpa using hpar) hmem (by simpa using hop) (by simpa using hlt)
        (by simpa using hov)
      simpa using this
  · exact ⟨by decide, by decide, by decide, by decide, by decide, by decide,
      by decide⟩

/-- Witness for the universal conjunct of the extended-arg claim: a
marked JUMP_ABSOLUTE with operand 254 grown by 2 overflows; the low byte
becomes `256 % 256 = 0` and the pending `[EXTENDED_ARG, 1]` insertion is
emitted at its offset. -/
theorem extended_arg_insertion_behavior_witness :
    (modify_jumps [0] 2 0 [113, 254]).1.getD (0 + 1) 0 =
        ([113, 254].getD (0 + 1) 0 + 2) % 256 ∧
      (0, [EXTENDED_ARG, ([113, 254].getD (0 + 1) 0 + 2) / 256]) ∈
        (modify_jumps [0] 2 0 [113, 254]).2 :=
  extended_arg_insertion_behavior.1 [113, 254] [0] 2 0 (by decide) (by decide)
    (by decide) (by decide) (by decide)

/-- Concrete input exhibiting the jump-correctness divergence: an
absolute jump that already carries an EXTENDED_ARG prefix
(`EXTENDED_ARG 1; JUMP_ABSOLUTE 254`, combined target 510 — the
RETURN_VALUE at offset 510), followed by 253 NOPs and RETURN_VALUE. -/
def c1target : List Nat := [144, 1, 113, 254] ++ nops 253 ++ [83, 0]

/-- What the engine actually produces for `c1target` when a two-byte
snippet is inserted at offset 0: two chained EXTENDED_ARG prefixes whose
combined operand decodes to 65794 instead of the target's new offset. -/
def c1out : List Nat := [9, 0, 144, 1, 144, 1, 113, 2] ++ nops 253 ++ [83, 0]

/-- C1 (code bug): jump-correctness fails on the code.  Before insertion
the jump at offset 2 decodes to target 510, which holds the RETURN_VALUE
instruction.  After `_update_label_offsets` splices a two-byte snippet at
offset 0, that RETURN_VALUE sits at offset 514 (`510 + 2` for the snippet
`+ 2` for the emitted EXTENDED_ARG), but the rewritten jump decodes to
65794: the overflow path stacked a second EXTENDED_ARG in front of the
pre-existing one, so the jump no longer reaches its logical destination
(65794 is even past the end of the 516-byte stream). -/
theorem update_label_offsets_extended_arg_corruption :
    update_label_offsets c1target 0 [9, 0] 3 = some (c1out, [(0, 2), (4, 2)]) ∧
    (2, 113, some 510) ∈ unpack_opargs c1target ∧
    c1target.getD 510 0 = 83 ∧ c1target.length = 512 ∧
    (6, 113, some 65794) ∈ unpack_opargs c1out ∧
    c1out.getD 514 0 = 83 ∧ c1out.length = 516 ∧
    (65794 : Nat) ≠ 514 := by
  exact ⟨by decide, by decide, by decide, by decide, by decide, by decide,
    by decide, by decide⟩

/-! ### Facts about `apply_shift_aux` (the symbol-table shift loop) -/

theorem except_map_error_iff {α β : Type} {f : α → β} {x : Except String α}
    {m : String} : x.map f = .error m ↔ x = .error m := by
  cases x <;> simp [Except.map]

theorem apply_shift_aux_length :
    ∀ (es : List (Nat × Nat × Option Nat)) (n : Nat) (ol : List Nat)
      (acc out : List Nat),
      apply_shift_aux n ol es acc = .ok out → out.length = acc.length := by
  intro es
  induction es with
  | nil =>
    intro n ol acc out h
    simp only [apply_shift_aux, Except.ok.injEq] at h
    rw [← h]
  | cons e rest ih =>
    obtain ⟨o, op, a⟩ := e
    intro n ol acc out h
    simp only [apply_shift_aux] at h
    split at h
    · split at h
      · exact absurd h (by simp)
      · have := ih n ol _ out h
        simpa using this
    · exact ih n ol acc out h

theorem apply_shift_aux_untouched :
    ∀ (es : List (Nat × Nat × Option Nat)) (n : Nat) (ol : List Nat)
      (acc out : List Nat) (p : Nat),
      apply_shift_aux n ol es acc = .ok out →
      (∀ e ∈ es, e.2.1 ∈ ol → p ≠ e.1 + 1) →
      out.getD p 0 = acc.getD p 0 := by
  intro es
  induction es with
  | nil =>
    intro n ol acc out p h _
    simp only [apply_shift_aux, Except.ok.injEq] at h
    rw [← h]
  | cons e rest ih =>
    obtain ⟨o, op, a⟩ := e
    intro n ol acc out p h hp
    simp only [apply_shift_aux] at h
    split at h
    · rename_i hop
      split at h
      · exact absurd h (by simp)
      · have hne : p ≠ o + 1 := hp (o, op, a) (List.mem_cons_self _ _) hop
        have := ih n ol _ out p h
          (fun e' he' hop' => hp e' (List.mem_cons_of_mem _ he') hop')
        rw [this, getD_set_ne _ _ (fun hc => hne hc.symm)]
    · exact ih n ol acc out p h
        (fun e' he' hop' => hp e' (List.mem_cons_of_mem _ he') hop')

theorem apply_shift_aux_shifted :
    ∀ (es : List (Nat × Nat × Option Nat)) (n : Nat) (ol : List Nat)
      (acc out : List Nat),
      es.Pairwise (fun a b => a.1 < b.1) →
      apply_shift_aux n ol es acc = .ok out →
      ∀ e ∈ es, e.2.1 ∈ ol → e.1 + 1 < acc.length →
      out.getD (e.1 + 1) 0 = acc.getD (e.1 + 1) 0 + n := by
  intro es
  induction es with
  | nil => intro n ol acc out _ _ e he; simp at he
  | cons x rest ih =>
    obtain ⟨o, op, a⟩ := x
    intro n ol acc out hpw h e he hop hlt
    obtain ⟨hx, hrest⟩ := List.pairwise_cons.mp hpw
    simp only [apply_shift_aux] at h
    rcases List.mem_cons.mp he with rfl | he'
    · simp only [] at hop
      rw [if_pos hop] at h
      split at h
      · exact absurd h (by simp)
      · have huntouched := apply_shift_aux_untouched rest n ol _ out (o + 1) h
          (fun e' he' _ => by
            have := hx e' he'
            omega)
        rw [huntouched, getD_set_self _ _ hlt]
    · have hneq : o + 1 ≠ e.1 + 1 := by
        have := hx e he'
        omega
      split at h
      · split at h
        · exact absurd h (by simp)
        · have := ih n ol _ out hrest h e he' hop
            (by simpa using hlt)
          rw [this, getD_set_ne _ _ hneq]
      · exact ih n ol acc out hrest h e he' hop hlt

theorem apply_shift_aux_error_iff :
    ∀ (es : List (Nat × Nat × Option Nat)) (n : Nat) (ol : List Nat)
      (code acc : List Nat),
      es.Pairwise (fun a b => a.1 < b.1) →
      (∀ e ∈ es, acc.getD (e.1 + 1) 0 = code.getD (e.1 + 1) 0) →
      (apply_shift_aux n ol es acc = .error "Bad number of arguments" ↔
        ∃ e ∈ es, e.2.1 ∈ ol ∧ code.getD (e.1 + 1) 0 + n > MAX_BYTE) := by
  intro es
  induction es with
  | nil =>
    intro n ol code acc _ _
    simp [apply_shift_aux]
  | cons x rest ih =>
    obtain ⟨o, op, a⟩ := x
    intro n ol code acc hpw hagree
    obtain ⟨hx, hrest⟩ := List.pairwise_cons.mp hpw
    have haghead : acc.getD (o + 1) 0 = code.getD (o + 1) 0 :=
      hagree (o, op, a) (List.mem_cons_self _ _)
    simp only [apply_shift_aux]
    by_cases hop : op ∈ ol
    · rw [if_pos hop]
      by_cases hov : acc.getD (o + 1) 0 + n > MAX_BYTE
      · rw [if_pos hov]
        simp only [true_iff, List.mem_cons]
        exact ⟨(o, op, a), Or.inl rfl, hop, by rw [← haghead]; exact hov⟩
      · rw [if_neg hov]
        have hagree' : ∀ e ∈ rest,
            (acc.set (o + 1) (acc.getD (o + 1) 0 + n)).getD (e.1 + 1) 0 =
              code.getD (e.1 + 1) 0 := by
          intro e he
          have hne : o + 1 ≠ e.1 + 1 := by
            have := hx e he
            omega
          rw [getD_set_ne _ _ hne]
          exact hagree e (List.mem_cons_of_mem _ he)
        rw [ih n ol code _ hrest hagree']
        constructor
        · intro ⟨e, he, hh⟩
          exact ⟨e, List.mem_cons_of_mem _ he, hh⟩
        · intro ⟨e, he, hh⟩
          rcases List.mem_cons.mp he with rfl | he'
          · exact absurd hh.2 (by simp only []; rw [← haghead]; omega)
          · exact ⟨e, he', hh⟩
    · rw [if_neg hop]
      rw [ih n ol code acc hrest
        (fun e he => hagree e (List.mem_cons_of_mem _ he))]
      constructor
      · intro ⟨e, he, hh⟩
        exact ⟨e, List.mem_cons_of_mem _ he, hh⟩
      · intro ⟨e, he, hh⟩
        rcases List.mem_cons.mp he with rfl | he'
        · exact absurd hh.1 hop
        · exact ⟨e, he', hh⟩

/-- C5: on success, the symbol-table merger returns the snippet bytes
with every instruction whose opcode belongs to the kind's opcode list
having its operand byte increased by the length of the target's table,
every other byte unchanged (and the byte length preserved), together with
the concatenation of the target's entries followed by the snippet's
entries — so no index used by an unmodified target instruction is ever
renumbered. -/
theorem add_attr_values_success_spec
    (orig_value insert_value insert_code_obj op_list : List Nat)
    (out new_values : List Nat)
    (heven : insert_code_obj.length % 2 = 0)
    (h : add_attr_values_from_insert_to_original orig_value insert_value
        insert_code_obj op_list = .ok (out, new_values)) :
    new_values = orig_value ++ insert_value ∧
    out.length = insert_code_obj.length ∧
    (∀ e ∈ unpack_opargs insert_code_obj, e.2.1 ∈ op_list →
      out.getD (e.1 + 1) 0 =
        insert_code_obj.getD (e.1 + 1) 0 + orig_value.length) ∧
    (∀ p : Nat, (∀ e ∈ unpack_opargs insert_code_obj, e.2.1 ∈ op_list →
        p ≠ e.1 + 1) → out.getD p 0 = insert_code_obj.getD p 0) := by
  unfold add_attr_values_from_insert_to_original at h
  cases hs : apply_shift_aux orig_value.length op_list
      (unpack_opargs insert_code_obj) insert_code_obj with
  | error e =>
    rw [hs] at h
    simp [Except.map] at h
  | ok c =>
    rw [hs] at h
    simp only [Except.map, Except.ok.injEq, Prod.mk.injEq] at h
    obtain ⟨rfl, rfl⟩ := h
    refine ⟨rfl, apply_shift_aux_length _ _ _ _ _ hs, ?_, ?_⟩
    · intro e he hop
      exact apply_shift_aux_shifted _ _ _ _ _ (unpack_aux_pairwise _ 0 0) hs e
        he hop (by simpa using unpack_aux_succ_lt_of_even _ 0 0 e he heven)
    · intro p hp
      exact apply_shift_aux_untouched _ _ _ _ _ p hs hp

/-- Witness for the merger-success claim: a snippet `LOAD_NAME 0; NOP`
merged into a target with one existing name; the load's operand becomes 1
and everything else is untouched. -/
theorem add_attr_values_success_spec_witness :
    ([7] : List Nat) = [7] ++ [] ∧
    ([101, 1, 9, 0] : List Nat).length = ([101, 0, 9, 0] : List Nat).length ∧
    (∀ e ∈ unpack_opargs [101, 0, 9, 0], e.2.1 ∈ hasname →
      ([101, 1, 9, 0] : List Nat).getD (e.1 + 1) 0 =
        ([101, 0, 9, 0] : List Nat).getD (e.1 + 1) 0 + ([7] : List Nat).length) ∧
    (∀ p : Nat, (∀ e ∈ unpack_opargs [101, 0, 9, 0], e.2.1 ∈ hasname →
        p ≠ e.1 + 1) →
      ([101, 1, 9, 0] : List Nat).getD p 0 =
        ([101, 0, 9, 0] : List Nat).getD p 0) :=
  add_attr_values_success_spec [7] [] [101, 0, 9, 0] hasname [101, 1, 9, 0] [7]
    (by decide) rfl

/-- C6 counterexample: the claim says the merger fails exactly when some
snippet operand, after the shift, would exceed 255.  Here the snippet
instruction `EXTENDED_ARG 1; LOAD_NAME 0` references name 256, so its
shifted operand 257 exceeds 255, yet the merger succeeds (it only checks
the stored low operand byte): the claimed equivalence is false. -/
theorem add_attr_values_overflow_counterexample :
    add_attr_values_from_insert_to_original [0] [] [144, 1, 101, 0] hasname =
      .ok ([144, 1, 101, 1], [0]) ∧
    (2, 101, some 256) ∈ unpack_opargs [144, 1, 101, 0] ∧
    101 ∈ hasname ∧ 256 + ([0] : List Nat).length > MAX_BYTE := by
  exact ⟨rfl, by decide, by decide, by decide⟩

/-- C6 (amended): the merger fails with the capacity error if and only if
some snippet instruction whose opcode is in the kind's opcode list has a
stored low operand byte that, plus the target's table length, exceeds 255
(extended-arg prefixes are not consulted); in particular a target with at
least 256 existing entries merged with a snippet containing any
instruction of that kind always fails, and the failure is a plain error —
no extended-operand fallback is attempted. -/
theorem add_attr_values_error_iff :
    (∀ (orig_value insert_value insert_code_obj op_list : List Nat),
      add_attr_values_from_insert_to_original orig_value insert_value
          insert_code_obj op_list = .error "Bad number of arguments" ↔
        ∃ e ∈ unpack_opargs insert_code_obj, e.2.1 ∈ op_list ∧
          insert_code_obj.getD (e.1 + 1) 0 + orig_value.length > MAX_BYTE) ∧
    (∀ (orig_value insert_value insert_code_obj op_list : List Nat),
      255 < orig_value.length →
      (∃ e ∈ unpack_opargs insert_code_obj, e.2.1 ∈ op_list) →
      add_attr_values_from_insert_to_original orig_value insert_value
          insert_code_obj op_list = .error "Bad number of arguments") := by
  have key : ∀ (orig_value insert_value insert_code_obj op_list : List Nat),
      add_attr_values_from_insert_to_original orig_value insert_value
          insert_code_obj op_list = .error "Bad number of arguments" ↔
        ∃ e ∈ unpack_opargs insert_code_obj, e.2.1 ∈ op_list ∧
          insert_code_obj.getD (e.1 + 1) 0 + orig_value.length > MAX_BYTE := by
    intro orig_value insert_value insert_code_obj op_list
    unfold add_attr_values_from_insert_to_original
    rw [except_map_error_iff]
    exact apply_shift_aux_error_iff _ _ _ _ _ (unpack_aux_pairwise _ 0 0)
      (fun e _ => rfl)
  refine ⟨key, ?_⟩
  intro orig_value insert_value insert_code_obj op_list hlen ⟨e, he, hop⟩
  exact (key orig_value insert_value insert_code_obj op_list).mpr
    ⟨e, he, hop, by simp only [MAX_BYTE]; omega⟩

/-- Witness for the amended merger-failure claim: a target with 256
existing names and a snippet that loads one name fails with the capacity
error. -/
theorem add_attr_values_error_iff_witness :
    add_attr_values_from_insert_to_original (List.replicate 256 0) [] [101, 0]
        hasname = .error "Bad number of arguments" :=
  add_attr_values_error_iff.2 (List.replicate 256 0) [] [101, 0] hasname
    (by simp) ⟨(0, 101, some 0), by decide, by decide⟩

/-! ### The line-table adjuster versus the claim's description -/

/-- Claim-side attribution walk (refinement reference, written from the
claim's words): the total inserted length attributed to one line-table
entry — every insertion offset falling inside the entry's byte span adds
its size to the attributed total and extends the span and the running
offset — together with the entry's final absolute end offset. -/
def attributed_to_entry : List (Nat × Nat) → Nat → Nat → Nat × Nat
  | [], _, abs_offset => (0, abs_offset)
  | (inserted_offset, size) :: rest, prev_abs_offset, abs_offset =>
    if prev_abs_offset ≤ inserted_offset ∧ inserted_offset < abs_offset then
      let r := attributed_to_entry rest prev_abs_offset (abs_offset + size)
      (size + r.1, r.2)
    else attributed_to_entry rest prev_abs_offset abs_offset

/-- Claim-side line-table adjuster (refinement reference, written from
the claim's words): walk the delta-encoded table accumulating the running
byte offset; each entry's byte-delta grows by the total inserted length
attributed to its span (the running offset growing likewise), and the
capacity error is raised exactly when an entry's resulting byte-delta
would exceed the one-byte limit. -/
def modify_new_lines_claim_aux (all_inserted_code : List (Nat × Nat)) :
    Nat → List Nat → Except String (List Nat)
  | _, [] => .ok []
  | abs_offset, [b] =>
    let r := attributed_to_entry all_inserted_code abs_offset (abs_offset + b)
    if b + r.1 > MAX_BYTE then .error "Bad number of arguments"
    else .ok [b + r.1]
  | abs_offset, b :: l :: rest =>
    let r := attributed_to_entry all_inserted_code abs_offset (abs_offset + b)
    if b + r.1 > MAX_BYTE then .error "Bad number of arguments"
    else (modify_new_lines_claim_aux all_inserted_code r.2 rest).map
      (fun t => (b + r.1) :: l :: t)

/-- Claim-side `_modify_new_lines`. -/
def modify_new_lines_claim (co_lnotab : List Nat)
    (all_inserted_code : List (Nat × Nat)) : Except String (List Nat) :=
  modify_new_lines_claim_aux all_inserted_code 0 co_lnotab

theorem modify_entry_eq_attributed :
    ∀ (ins : List (Nat × Nat)) (prev delta abs_offset : Nat),
      delta ≤ MAX_BYTE →
      modify_entry ins prev delta abs_offset =
        (if delta + (attributed_to_entry ins prev abs_offset).1 > MAX_BYTE
         then .error "Bad number of arguments"
         else .ok (delta + (attributed_to_entry ins prev abs_offset).1,
           (attributed_to_entry ins prev abs_offset).2))
  | [], prev, delta, abs_offset, hd => by
    simp only [modify_entry, attributed_to_entry]
    rw [if_neg (by simp only [MAX_BYTE] at hd ⊢; omega)]
    rfl
  | (io, size) :: rest, prev, delta, abs_offset, hd => by
    simp only [modify_entry, attributed_to_entry]
    by_cases hin : prev ≤ io ∧ io < abs_offset
    · rw [if_pos hin, if_pos hin]
      by_cases hov : delta + size > MAX_BYTE
      · rw [if_pos hov, if_pos (by
          simp only [MAX_BYTE] at hov ⊢
          omega)]
      · rw [if_neg hov]
        have hd' : delta + size ≤ MAX_BYTE := by
          simp only [MAX_BYTE] at hov ⊢
          omega
        rw [modify_entry_eq_attributed rest prev (delta + size)
          (abs_offset + size) hd']
        have hadd : delta + size +
            (attributed_to_entry rest prev (abs_offset + size)).1 =
            delta + (size +
              (attributed_to_entry rest prev (abs_offset + size)).1) := by
          omega
        rw [hadd]
    · rw [if_neg hin, if_neg hin]
      exact modify_entry_eq_attributed rest prev delta abs_offset hd

theorem modify_new_lines_aux_eq :
    ∀ (lnotab : List Nat) (ins : List (Nat × Nat)) (abs_offset : Nat),
      (∀ x ∈ lnotab, x ≤ MAX_BYTE) →
      modify_new_lines_aux ins abs_offset lnotab =
        modify_new_lines_claim_aux ins abs_offset lnotab
  | [], _, _, _ => rfl
  | [b], ins, abs_offset, hb => by
    have hble : b ≤ MAX_BYTE := hb b (by simp)
    simp only [modify_new_lines_aux, modify_new_lines_claim_aux]
    rw [modify_entry_eq_attributed ins abs_offset b (abs_offset + b) hble]
    by_cases hov :
        b + (attributed_to_entry ins abs_offset (abs_offset + b)).1 > MAX_BYTE
    · rw [if_pos hov, if_pos hov]
      rfl
    · rw [if_neg hov, if_neg hov]
      rfl
  | b :: l :: rest, ins, abs_offset, hb => by
    have hble : b ≤ MAX_BYTE := hb b (by simp)
    simp only [modify_new_lines_aux, modify_new_lines_claim_aux]
    rw [modify_entry_eq_attributed ins abs_offset b (abs_offset + b) hble]
    by_cases hov :
        b + (attributed_to_entry ins abs_offset (abs_offset + b)).1 > MAX_BYTE
    · rw [if_pos hov, if_pos hov]
    · rw [if_neg hov, if_neg hov]
      have ih := modify_new_lines_aux_eq rest ins
        (attributed_to_entry ins abs_offset (abs_offset + b)).2
        (fun x hx => hb x (List.mem_cons_of_mem _ (List.mem_cons_of_mem _ hx)))
      show Except.map
          (fun t => (b + (attributed_to_entry ins abs_offset (abs_offset + b)).1) :: l :: t)
          (modify_new_lines_aux ins
            (attributed_to_entry ins abs_offset (abs_offset + b)).2 rest) =
        Except.map
          (fun t => (b + (attributed_to_entry ins abs_offset (abs_offset + b)).1) :: l :: t)
          (modify_new_lines_claim_aux ins
            (attributed_to_entry ins abs_offset (abs_offset + b)).2 rest)
      rw [ih]

/-- C8: the line-table adjuster behaves exactly as the claim describes —
walking the delta-encoded table with a running byte offset, adding each
insertion that falls within the current entry's byte span to that entry's
byte-delta and to the running offset, and raising the capacity error
precisely when an entry's resulting byte-delta would exceed 255 (the
claim-side walk `modify_new_lines_claim` checks the final per-entry
delta, the code checks before each single addition; the two agree for
byte-valued input tables). -/
theorem modify_new_lines_matches_claim (co_lnotab : List Nat)
    (all_inserted_code : List (Nat × Nat))
    (h : ∀ x ∈ co_lnotab, x ≤ MAX_BYTE) :
    modify_new_lines co_lnotab all_inserted_code =
      modify_new_lines_claim co_lnotab all_inserted_code :=
  modify_new_lines_aux_eq co_lnotab all_inserted_code 0 h

/-- Witness for the line-table claim at a concrete table: two entries of
byte-delta 10, insertions of 3 bytes at offset 5 (inside the first span)
and 4 bytes at offset 12 (inside the first span once it has grown). -/
theorem modify_new_lines_matches_claim_witness :
    modify_new_lines [10, 1, 10, 1] [(5, 3), (12, 4)] =
      modify_new_lines_claim [10, 1, 10, 1] [(5, 3), (12, 4)] :=
  modify_new_lines_matches_claim [10, 1, 10, 1] [(5, 3), (12, 4)] (by decide)

/-! ### The orchestrator: line-not-found no-op, metadata, offset choice -/

/-- C7: if no instruction begins exactly at the requested source line (the
line is absent from the target's line-starts mapping), `insert_code` is a
no-op returning the target unit itself, not an error. -/
theorem insert_code_line_not_found_noop
    (code_to_modify code_to_insert : CodeType) (before_line : Int) (fuel : Nat)
    (h : ∀ p ∈ findlinestarts code_to_modify, p.2 ≠ before_line) :
    insert_code code_to_modify code_to_insert before_line fuel =
      some (.ok (.unchanged code_to_modify)) := by
  unfold insert_code
  rw [if_pos h]

/-- Concrete target unit: three instructions at offsets 0, 2, 4 with line
starts at offsets 0 (line 1) and 2 (line 2). -/
def t0 : CodeType where
  co_argcount := 0
  co_kwonlyargcount := 0
  co_nlocals := 0
  co_stacksize := 1
  co_flags := 64
  co_code := [9, 0, 9, 0, 83, 0]
  co_consts := [0]
  co_names := []
  co_varnames := []
  co_filename := "f"
  co_name := "g"
  co_firstlineno := 1
  co_lnotab := [2, 1]
  co_freevars := []
  co_cellvars := []

/-- Concrete snippet unit: one NOP of side effect plus the compiled
`return None` epilogue. -/
def s0 : CodeType where
  co_argcount := 0
  co_kwonlyargcount := 0
  co_nlocals := 0
  co_stacksize := 1
  co_flags := 64
  co_code := [9, 0, 100, 0, 83, 0]
  co_consts := [0]
  co_names := []
  co_varnames := []
  co_filename := "s"
  co_name := "m"
  co_firstlineno := 1
  co_lnotab := []
  co_freevars := []
  co_cellvars := []

/-- Witness for the no-op claim: line 99 starts no instruction of `t0`. -/
theorem insert_code_line_not_found_noop_witness :
    insert_code t0 s0 99 2 = some (.ok (.unchanged t0)) :=
  insert_code_line_not_found_noop t0 s0 99 2 (by decide)

theorem add_attr_values_snd
    (orig_value insert_value insert_code_obj op_list out new_values : List Nat)
    (h : add_attr_values_from_insert_to_original orig_value insert_value
      insert_code_obj op_list = .ok (out, new_values)) :
    new_values = orig_value ++ insert_value := by
  unfold add_attr_values_from_insert_to_original at h
  cases hs : apply_shift_aux orig_value.length op_list
      (unpack_opargs insert_code_obj) insert_code_obj with
  | error e =>
    rw [hs] at h
    simp [Except.map] at h
  | ok c =>
    rw [hs] at h
    simp only [Except.map, Except.ok.injEq, Prod.mk.injEq] at h
    exact h.2.symm

/-- C9: on success, every scalar metadata field of the assembled unit
(argument counts, stack-size bound, flags, filename, qualified name,
first line number, free and cell variable lists) equals the target's,
except the local-variable count, which equals the length of the merged
locals table (target locals followed by snippet locals). -/
theorem insert_code_metadata_preserved
    (code_to_modify code_to_insert : CodeType) (before_line : Int) (fuel : Nat)
    (u : CodeType)
    (h : insert_code code_to_modify code_to_insert before_line fuel =
      some (.ok (.rewritten u))) :
    u.co_argcount = code_to_modify.co_argcount ∧
    u.co_kwonlyargcount = code_to_modify.co_kwonlyargcount ∧
    u.co_stacksize = code_to_modify.co_stacksize ∧
    u.co_flags = code_to_modify.co_flags ∧
    u.co_filename = code_to_modify.co_filename ∧
    u.co_name = code_to_modify.co_name ∧
    u.co_firstlineno = code_to_modify.co_firstlineno ∧
    u.co_freevars = code_to_modify.co_freevars ∧
    u.co_cellvars = code_to_modify.co_cellvars ∧
    u.co_nlocals =
      (code_to_modify.co_varnames ++ code_to_insert.co_varnames).length := by
  simp only [insert_code] at h
  split at h
  · simp at h
  · split at h
    · simp at h
    · split at h
      · simp at h
      · rename_i obj1 new_names heq1
        split at h
        · simp at h
        · rename_i obj2 new_consts heq2
          split at h
          · simp at h
          · rename_i obj3 new_vars heq3
            split at h
            · simp at h
            · rename_i new_bytes all_ins heq4
              split at h
              · simp at h
              · rename_i new_lnotab heq5
                simp only [Option.some.injEq, Except.ok.injEq,
                  InsertResult.rewritten.injEq] at h
                have hvars := add_attr_values_snd _ _ _ _ _ _ heq3
                subst h
                exact ⟨rfl, rfl, rfl, rfl, rfl, rfl, rfl, rfl, rfl,
                  by rw [← hvars]⟩

/-- The unit `insert_code t0 s0 2` actually assembles. -/
def u0 : CodeType where
  co_argcount := 0
  co_kwonlyargcount := 0
  co_nlocals := 0
  co_stacksize := 1
  co_flags := 64
  co_code := [9, 0, 9, 0, 9, 0, 83, 0]
  co_consts := [0, 0]
  co_names := []
  co_varnames := []
  co_filename := "f"
  co_name := "g"
  co_firstlineno := 1
  co_lnotab := [2, 1]
  co_freevars := []
  co_cellvars := []

/-- Witness for the metadata claim on a concrete successful insertion. -/
theorem insert_code_metadata_preserved_witness :
    u0.co_argcount = t0.co_argcount ∧
    u0.co_kwonlyargcount = t0.co_kwonlyargcount ∧
    u0.co_stacksize = t0.co_stacksize ∧
    u0.co_flags = t0.co_flags ∧
    u0.co_filename = t0.co_filename ∧
    u0.co_name = t0.co_name ∧
    u0.co_firstlineno = t0.co_firstlineno ∧
    u0.co_freevars = t0.co_freevars ∧
    u0.co_cellvars = t0.co_cellvars ∧
    u0.co_nlocals = (t0.co_varnames ++ s0.co_varnames).length :=
  insert_code_metadata_preserved t0 s0 2 2 u0 rfl

/-! ### Line-start offsets and the last-match selection -/

theorem findlinestarts_aux_addr_ge :
    ∀ (lnotab : List Nat) (addr : Nat) (lineno : Int) (last : Option Int)
      (p : Nat × Int),
      p ∈ findlinestarts_aux lnotab addr lineno last → addr ≤ p.1
  | [], addr, lineno, last, p, h => by
    simp only [findlinestarts_aux] at h
    split at h
    · simp at h
    · simp only [List.mem_singleton] at h
      subst h
      exact Nat.le_refl _
  | [b], addr, lineno, last, p, h => by
    simp only [findlinestarts_aux] at h
    split at h
    · simp at h
    · simp only [List.mem_singleton] at h
      subst h
      exact Nat.le_refl _
  | b :: l :: rest, addr, lineno, last, p, h => by
    simp only [findlinestarts_aux] at h
    split at h
    · split at h
      · have := findlinestarts_aux_addr_ge rest (addr + b) _ _ p h
        omega
      · rcases List.mem_cons.mp h with rfl | h'
        · exact Nat.le_refl _
        · have := findlinestarts_aux_addr_ge rest (addr + b) _ _ p h'
          omega
    · exact findlinestarts_aux_addr_ge rest addr _ _ p h

theorem findlinestarts_aux_pairwise :
    ∀ (lnotab : List Nat) (addr : Nat) (lineno : Int) (last : Option Int),
      (findlinestarts_aux lnotab addr lineno last).Pairwise
        (fun a b => a.1 < b.1)
  | [], addr, lineno, last => by
    simp only [findlinestarts_aux]
    split <;> simp
  | [b], addr, lineno, last => by
    simp only [findlinestarts_aux]
    split <;> simp
  | b :: l :: rest, addr, lineno, last => by
    simp only [findlinestarts_aux]
    split
    · rename_i hb
      split
      · exact findlinestarts_aux_pairwise rest (addr + b) _ _
      · refine List.pairwise_cons.mpr
          ⟨fun p hp => ?_, findlinestarts_aux_pairwise rest (addr + b) _ _⟩
        have := findlinestarts_aux_addr_ge rest (addr + b) _ _ p hp
        show addr < p.1
        omega
    · exact findlinestarts_aux_pairwise rest addr _ _

theorem select_foldl_no_match (line : Int) :
    ∀ (ps : List (Nat × Int)) (acc : Option Nat),
      (∀ p ∈ ps, p.2 ≠ line) →
      ps.foldl (fun acc p => if p.2 = line then some p.1 else acc) acc = acc
  | [], acc, _ => rfl
  | q :: rest, acc, h => by
    simp only [List.foldl_cons]
    rw [if_neg (h q (List.mem_cons_self _ _))]
    exact select_foldl_no_match line rest acc
      (fun p hp => h p (List.mem_cons_of_mem _ hp))

theorem select_foldl_acc_irrel (line : Int) :
    ∀ (ps : List (Nat × Int)) (acc acc' : Option Nat),
      (∃ p ∈ ps, p.2 = line) →
      ps.foldl (fun acc p => if p.2 = line then some p.1 else acc) acc =
        ps.foldl (fun acc p => if p.2 = line then some p.1 else acc) acc'
  | [], _, _, h => by simp at h
  | q :: rest, acc, acc', h => by
    simp only [List.foldl_cons]
    by_cases hq : q.2 = line
    · rw [if_pos hq, if_pos hq]
    · rw [if_neg hq, if_neg hq]
      obtain ⟨p, hp, hpl⟩ := h
      rcases List.mem_cons.mp hp with rfl | hp'
      · exact absurd hpl hq
      · exact select_foldl_acc_irrel line rest acc acc' ⟨p, hp', hpl⟩

theorem select_offset_last :
    ∀ (ps : List (Nat × Int)) (line : Int) (o : Nat),
      ps.Pairwise (fun a b => a.1 < b.1) →
      select_offset ps line = some o →
      (o, line) ∈ ps ∧ ∀ p ∈ ps, p.2 = line → p.1 ≤ o
  | [], line, o, _, h => by simp [select_offset] at h
  | q :: rest, line, o, hpw, h => by
    obtain ⟨hq, hrest⟩ := List.pairwise_cons.mp hpw
    simp only [select_offset, List.foldl_cons] at h
    by_cases hql : q.2 = line
    · rw [if_pos hql] at h
      by_cases hex : ∃ p ∈ rest, p.2 = line
      · rw [select_foldl_acc_irrel line rest (some q.1) none hex] at h
        have ih := select_offset_last rest line o hrest h
        refine ⟨List.mem_cons_of_mem _ ih.1, fun p hp hpl => ?_⟩
        rcases List.mem_cons.mp hp with rfl | hp'
        · have := hq _ ih.1
          omega
        · exact ih.2 p hp' hpl
      · push_neg at hex
        rw [select_foldl_no_match line rest (some q.1) hex] at h
        have hqo : q.1 = o := by injection h
        refine ⟨?_, fun p hp hpl => ?_⟩
        · have hqeq : q = (o, line) := Prod.ext_iff.mpr ⟨hqo, hql⟩
          rw [← hqeq]
          exact List.mem_cons_self _ _
        · rcases List.mem_cons.mp hp with rfl | hp'
          · omega
          · exact absurd hpl (hex p hp')
    · rw [if_neg hql] at h
      have ih := select_offset_last rest line o hrest h
      refine ⟨List.mem_cons_of_mem _ ih.1, fun p hp hpl => ?_⟩
      rcases List.mem_cons.mp hp with rfl | hp'
      · exact absurd hpl hql
      · exact ih.2 p hp' hpl

/-- C10: when several byte offsets in the target's line table start the
requested source line, the offset-resolution loop of `insert_code`
settles on the greatest such offset — the last one encountered walking
the line-starts pairs in order (the line-start offsets are strictly
increasing, so last encountered and greatest coincide). -/
theorem insert_code_offset_is_last_linestart (c : CodeType)
    (before_line : Int) (o : Nat)
    (h : select_offset (findlinestarts c) before_line = some o) :
    (o, before_line) ∈ findlinestarts c ∧
    ∀ p ∈ findlinestarts c, p.2 = before_line → p.1 ≤ o :=
  select_offset_last (findlinestarts c) before_line o
    (findlinestarts_aux_pairwise c.co_lnotab 0 c.co_firstlineno none) h

/-- Concrete target whose line table starts line 1 at offsets 0 and 4
(and line 2 at offsets 2 and 6). -/
def t1 : CodeType := { t0 with co_lnotab := [2, 1, 2, 255, 2, 1] }

/-- Witness for the insertion-point choice: line 1 of `t1` starts at
offsets 0 and 4, and the resolution loop picks 4, the greatest. -/
theorem insert_code_offset_is_last_linestart_witness :
    (4, (1 : Int)) ∈ findlinestarts t1 ∧
    ∀ p ∈ findlinestarts t1, p.2 = (1 : Int) → p.1 ≤ 4 :=
  insert_code_offset_is_last_linestart t1 1 4 (by decide)

end PydevBytecode
